import Mathlib

/-!
Shallow embedding of the bandit-simulation utilities of `src/utils.py`
(`simulate_rounds` and `run_simulation`) and verification of the
documented properties of the batch scheduler, the warm-start
initializer, the round simulator and the simulation driver.

Conventions of the embedding:

* Python integers are modelled as `ℤ` (row counts and indices that the
  source keeps non-negative are modelled as `ℕ` where convenient); the
  float `incr_batch_pct` is modelled as `ℚ`, and Python's `int(x)` is
  truncation toward zero (`truncRat`).
* The numpy global random generator is modelled by an explicit integer
  state: `np.random.seed(k)` puts the generator into state `k`, and every
  stochastic call site of the source receives the generator state that is
  in effect there.  `np.random.randint` itself is an abstract oracle
  (`NpRandom`) producing values below the given bound.
* Wall-clock durations (`pd.Timestamp.now()`) are not representable in a
  pure model; the per-policy timing log is modelled by its entry count
  (`tcount`), one entry appended per simulated round, as in the source.
* The scheduler `while` loop of `run_simulation` can diverge on bad
  inputs, so its embedding carries explicit fuel and returns `none` when
  the fuel is exhausted (i.e. when the source loop has not terminated
  within that many iterations).
-/

/-- Python's `int(q)` on a numeric value: truncation toward zero. -/
def truncRat (q : ℚ) : ℤ := if 0 ≤ q then ⌊q⌋ else -⌊-q⌋

/-- One iteration's increment in the scheduler loop of `run_simulation`:
`incr = max(min_batch, int(incr_batch_pct*n))`, then replaced by
`len(X) - n` when `n + incr` would pass `len(X)`. -/
def schedIncr (mb : ℤ) (pct : ℚ) (total n : ℤ) : ℤ :=
  if total < n + max mb (truncRat (pct * (n : ℚ))) then total - n
  else max mb (truncRat (pct * (n : ℚ)))

/-- The scheduler loop `while n < len(X): ...` of `run_simulation`, with
explicit fuel.  Starting from position `n` it returns the boundaries
appended after `n` (the tail of `ns`) together with the increments
(`incrs`), or `none` if the loop does not finish within `fuel`
iterations. -/
def schedTail (fuel : ℕ) (mb : ℤ) (pct : ℚ) (total : ℤ) (n : ℤ) :
    Option (List ℤ × List ℤ) :=
  match fuel with
  | 0 => none
  | fuel + 1 =>
    if n < total then
      match schedTail fuel mb pct total (n + schedIncr mb pct total n) with
      | none => none
      | some (tns, tincrs) =>
          some ((n + schedIncr mb pct total n) :: tns,
                schedIncr mb pct total n :: tincrs)
    else some ([], [])

/-- The scheduler of `run_simulation` run from `n = 0` with `ns = [0]`. -/
def buildSchedule (mb : ℤ) (pct : ℚ) (total : ℤ) (fuel : ℕ) :
    Option (List ℤ × List ℤ) :=
  (schedTail fuel mb pct total 0).map (fun p => (0 :: p.1, p.2))

/-- The batch schedule `(ns, incrs)` computed at the top of
`run_simulation`; the fuel `total.toNat + 1` suffices for every
terminating run of the source loop (each iteration advances `n` by at
least one). -/
def simSchedule (mb : ℤ) (pct : ℚ) (total : ℤ) : Option (List ℤ × List ℤ) :=
  buildSchedule mb pct total (total.toNat + 1)

/-- Consecutive pairs of a boundary list, i.e. the half-open intervals
the schedule is consumed as. -/
def ival {β : Type} (l : List β) : List (β × β) := l.zip l.tail

/-- The union of the half-open intervals described by a list of pairs. -/
def unionIvals (l : List (ℤ × ℤ)) : Set ℤ :=
  l.foldr (fun p s => Set.Ico p.1 p.2 ∪ s) ∅

/-- `random_seed=23` at the top of `utils.py`. -/
def random_seed : ℕ := 23

/-- The row slice `X[st:en, :]` of the feature matrix, one abstract
feature row per index. -/
def rows {α : Type} (X : ℕ → α) (st en : ℕ) : List α :=
  (List.range' st (en - st)).map X

/-- `np.arange(st, en)`. -/
def rowIdx (st en : ℕ) : List ℕ := List.range' st (en - st)

/-- A bandit policy as `utils.py` duck-types it: something with
`predict` and `fit`.  `predict` receives the state of the global numpy
generator in effect at the call (the source reseeds it immediately
before); `fit` receives and returns the generator state, since fitting
may consume randomness. -/
structure Policy (α σ : Type) where
  init : σ
  predict : σ → List α → ℕ → List ℕ
  fit : σ → List α → List ℕ → List ℚ → Bool → ℕ → σ × ℕ

/-- A policy's predictions have one action per feature row (the
interface contract of §6; numpy fancy indexing in the source requires
it). -/
def PredictsPerRow {α σ : Type} (P : Policy α σ) : Prop :=
  ∀ m f s, (P.predict m f s).length = f.length

/-- The per-policy mutable data of `run_simulation`: the model, its
reward log, action history and timing log (the latter modelled by its
entry count). -/
structure PolRun (α σ : Type) where
  pol : Policy α σ
  state : σ
  rewards : List ℚ
  hist : List ℕ
  tcount : ℕ

/-- `y_global[np.arange(st, en), acts].sum()`. -/
def batchRewardSum (y : ℕ → ℕ → ℚ) (st en : ℕ) (acts : List ℕ) : ℚ :=
  (((rowIdx st en).zip acts).map (fun p => y p.1 p.2)).sum

/-- `simulate_rounds` of `utils.py` for one policy and one batch
`[batch_st, batch_end)`:
* `np.random.seed(batch_st)` then
  `model.predict(X_global[batch_st:batch_end, :]).astype('uint8')`
  (the cast reduces each action modulo 2^8);
* append `y_global[np.arange(batch_st, batch_end), actions].sum()` to the
  reward log;
* `new_actions_hist = np.append(actions_hist, actions_this_batch)`;
* `np.random.seed(random_seed)` then, if `fit`,
  `model.fit(X_global[:batch_end, :], new_actions_hist,
  y_global[np.arange(batch_end), new_actions_hist], warm_start=True)`;
* append one entry to the timing log. -/
def simulate_rounds {α σ : Type} (X : ℕ → α) (y : ℕ → ℕ → ℚ)
    (batch_st batch_end : ℕ) (pr : PolRun α σ) (fit : Bool := true) :
    PolRun α σ :=
  let actions_this_batch :=
    (pr.pol.predict pr.state (rows X batch_st batch_end) batch_st).map (· % 256)
  let new_hist := pr.hist ++ actions_this_batch
  { pol := pr.pol
    state :=
      if fit then
        (pr.pol.fit pr.state (rows X 0 batch_end) new_hist
          (((rowIdx 0 batch_end).zip new_hist).map (fun p => y p.1 p.2))
          true random_seed).1
      else pr.state
    rewards := pr.rewards ++ [batchRewardSum y batch_st batch_end actions_this_batch]
    hist := new_hist
    tcount := pr.tcount + 1 }

/-- The numpy generator as an abstract oracle: `randint s hi n` draws
`n` values below `hi` from generator state `s` and returns the new
state. -/
structure NpRandom where
  randint : ℕ → ℕ → ℕ → List ℕ × ℕ
  randint_length : ∀ s hi n, (randint s hi n).1.length = n
  randint_lt : ∀ s hi n, 0 < hi → ∀ v ∈ (randint s hi n).1, v < hi

/-- The warm-start loop `for k, model in model_dict.items():
model.fit(X=first_batch, a=action_chosen, r=rewards_received)`.  The
generator state threads from one policy's fit to the next (the source
does not reseed between them). -/
def warmFits {α σ : Type} (feats : List α) (a : List ℕ) (r : List ℚ) :
    List (Policy α σ) → ℕ → List σ × ℕ
  | [], s => ([], s)
  | P :: rest, s =>
    let fs := P.fit P.init feats a r false s
    let tl := warmFits feats a r rest fs.2
    (fs.1 :: tl.1, tl.2)

/-- Pack each policy with its warm-start state, initial reward log,
shared initial action history (`action_chosen.copy()`) and initial
timing log. -/
def initRuns {α σ : Type} (models : List (Policy α σ)) (states : List σ)
    (rewards0 : List (List ℚ)) (tcounts0 : List ℕ) (hist0 : List ℕ) :
    List (PolRun α σ) :=
  ((models.zip states).zip (rewards0.zip tcounts0)).map
    (fun q => { pol := q.1.1, state := q.1.2, rewards := q.2.1,
                hist := hist0, tcount := q.2.2 })

/-- The warm-start phase of `run_simulation` (lines 52-62): draw
`action_chosen = np.random.randint(nchoices, size=min_batch)` once, look
up `rewards_received = y[np.arange(min_batch), action_chosen]`, fit every
policy once on that shared slice, and give every policy a copy of
`action_chosen` as initial action history. -/
def warmStart {α σ : Type} (rng : NpRandom) (X : ℕ → α) (y : ℕ → ℕ → ℚ)
    (nchoices : ℕ) (models : List (Policy α σ)) (rewards0 : List (List ℚ))
    (tcounts0 : List ℕ) (mbN : ℕ) (s0 : ℕ) : List (PolRun α σ) :=
  let action_chosen := (rng.randint s0 nchoices mbN).1
  let rewards_received := ((rowIdx 0 mbN).zip action_chosen).map (fun p => y p.1 p.2)
  initRuns models
    (warmFits (rows X 0 mbN) action_chosen rewards_received models
      (rng.randint s0 nchoices mbN).2).1
    rewards0 tcounts0 action_chosen

/-- The batch loop of `run_simulation` (lines 65-75): for each simulated
batch, advance every policy by one `simulate_rounds` step. -/
def runRounds {α σ : Type} (X : ℕ → α) (y : ℕ → ℕ → ℚ)
    (bounds : List (ℕ × ℕ)) (ps : List (PolRun α σ)) : List (PolRun α σ) :=
  bounds.foldl (fun acc b => acc.map (fun pr => simulate_rounds X y b.1 b.2 pr)) ps

/-- One policy's whole trajectory over a list of batches. -/
def polFold {α σ : Type} (X : ℕ → α) (y : ℕ → ℕ → ℚ)
    (bounds : List (ℕ × ℕ)) (pr : PolRun α σ) : PolRun α σ :=
  bounds.foldl (fun p b => simulate_rounds X y b.1 b.2 p) pr

/-- What `run_simulation` returns: the per-policy data and `ns[2:]`. -/
structure SimResult (α σ : Type) where
  runs : List (PolRun α σ)
  nsSim : List ℕ

/-- `run_simulation` of `utils.py`: build the batch schedule (`none` if
the scheduler loop diverges), run the warm start, then simulate every
batch `(ns[i-1], ns[i])` for `i in range(2, len(ns))` for every policy,
returning the final per-policy data and `ns[2:]`.  `total` is `len(X)`
and `nchoices` is `y.shape[1]`. -/
def run_simulation {α σ : Type} (rng : NpRandom) (X : ℕ → α) (total : ℕ)
    (y : ℕ → ℕ → ℚ) (nchoices : ℕ) (models : List (Policy α σ))
    (rewards0 : List (List ℚ)) (tcounts0 : List ℕ) (min_batch : ℤ) (pct : ℚ)
    (s0 : ℕ) : Option (SimResult α σ) :=
  match simSchedule min_batch pct (total : ℤ) with
  | none => none
  | some (ns, _) =>
    let nsN := ns.map Int.toNat
    some { runs := runRounds X y ((nsN.drop 1).zip (nsN.drop 2))
             (warmStart rng X y nchoices models rewards0 tcounts0
               min_batch.toNat s0)
           nsSim := nsN.drop 2 }

/-- A batch list is consistent with a current history length `s`: each
batch starts where the previous one ended. -/
def BoundsChain : ℕ → List (ℕ × ℕ) → Prop
  | _, [] => True
  | s, b :: bs => b.1 = s ∧ s ≤ b.2 ∧ BoundsChain b.2 bs

/-- The end position after a batch list (the last batch's end). -/
def boundsEnd : ℕ → List (ℕ × ℕ) → ℕ
  | s, [] => s
  | _, b :: bs => boundsEnd b.2 bs

/-! Concrete instances used by the witnesses. -/

/-- A concrete deterministic oracle standing in for `np.random`. -/
def rngW : NpRandom where
  randint := fun s _ n => (List.replicate n 0, s + 1)
  randint_length := by intro s hi n; simp
  randint_lt := by
    intro s hi n h v hv
    have : v = 0 := List.eq_of_mem_replicate hv
    omega

/-- A concrete policy over unit features with a counter as state. -/
def polW : Policy ℕ ℕ where
  init := 0
  predict := fun m f s => List.replicate f.length (m + s)
  fit := fun m _ a _ _ s => (m + a.length, s + 1)

/-- A second, different concrete policy (a "faulty" variant). -/
def polW2 : Policy ℕ ℕ where
  init := 5
  predict := fun _ f _ => List.replicate f.length 7
  fit := fun m _ _ _ _ s => (m * 2 + 1, s + 3)

/-- A concrete feature map. -/
def XW : ℕ → ℕ := fun i => i

/-- A concrete label matrix with 3 actions. -/
def yW : ℕ → ℕ → ℚ := fun i a => if a = i % 3 then 1 else 0

/-- A concrete in-flight policy state: history covers rows `[0, 2)`. -/
def prW : PolRun ℕ ℕ where
  pol := polW
  state := 0
  rewards := []
  hist := [0, 1]
  tcount := 0

/-- `prW` with a corrupted policy and state (a "fault"). -/
def prW2 : PolRun ℕ ℕ where
  pol := polW2
  state := 9
  rewards := [3]
  hist := [2, 2]
  tcount := 1

/-- A policy that predicts action `300`, i.e. beyond the `uint8` range
(as can happen with a label matrix of more than 256 actions). -/
def polW3 : Policy ℕ ℕ where
  init := 0
  predict := fun _ f _ => List.replicate f.length 300
  fit := fun m _ a _ _ s => (m + a.length, s + 1)

/-- An in-flight record for `polW3`, used to exhibit the silent
`uint8` wrap-around. -/
def prW3 : PolRun ℕ ℕ where
  pol := polW3
  state := 0
  rewards := []
  hist := [260, 1]
  tcount := 0

lemma truncRat_of_nonneg {q : ℚ} (h : 0 ≤ q) : truncRat q = ⌊q⌋ := by
  simp [truncRat, h]

lemma schedIncr_eq_min (mb : ℤ) (pct : ℚ) (total n : ℤ) :
    schedIncr mb pct total n
      = min (max mb (truncRat (pct * (n : ℚ)))) (total - n) := by
  unfold schedIncr
  by_cases h : total < n + max mb (truncRat (pct * (n : ℚ)))
  · simp only [if_pos h]
    omega
  · simp only [if_neg h]
    omega

lemma schedIncr_pos {mb : ℤ} (pct : ℚ) {total n : ℤ}
    (hmb : 1 ≤ mb) (h : n < total) : 1 ≤ schedIncr mb pct total n := by
  rw [schedIncr_eq_min]
  have h1 : 1 ≤ max mb (truncRat (pct * (n : ℚ))) := le_trans hmb (le_max_left _ _)
  omega

lemma schedIncr_add_le (mb : ℤ) (pct : ℚ) {total n : ℤ}
    (h : n < total) : n + schedIncr mb pct total n ≤ total := by
  rw [schedIncr_eq_min]
  rcases le_total (max mb (truncRat (pct * (n : ℚ)))) (total - n) with h' | h' <;> omega

/-- Master lemma about the scheduler loop: starting anywhere below
`total` with `min_batch ≥ 1`, the loop terminates within fuel
`total - n + 1` and the boundary list it produces is strictly
increasing, ends at `total`, agrees with the partial sums of the
increments, and each increment is exactly `schedIncr` at the interval's
left endpoint. -/
theorem schedTail_spec (mb : ℤ) (pct : ℚ) (total : ℤ) (hmb : 1 ≤ mb) :
    ∀ (fuel : ℕ) (n : ℤ), 0 ≤ n → n ≤ total → (total - n).toNat < fuel →
    ∃ tns tincrs, schedTail fuel mb pct total n = some (tns, tincrs) ∧
      List.Chain' (· < ·) (n :: tns) ∧
      (n :: tns).getLast? = some total ∧
      tns.length = tincrs.length ∧
      (∀ j, j ≤ tincrs.length →
        (n :: tns).get? j = some (n + (tincrs.take j).sum)) ∧
      tincrs = (ival (n :: tns)).map (fun p => p.2 - p.1) ∧
      (∀ p ∈ ival (n :: tns), 0 ≤ p.1 ∧ p.2 - p.1 = schedIncr mb pct total p.1) := by
  intro fuel
  induction fuel with
  | zero => intro n _ _ hf; omega
  | succ fuel ih =>
    intro n hn0 hnt hf
    by_cases h : n < total
    · have hpos := schedIncr_pos pct hmb h
      have hle := schedIncr_add_le mb pct h
      have hn0' : 0 ≤ n + schedIncr mb pct total n := by omega
      have hf' : (total - (n + schedIncr mb pct total n)).toNat < fuel := by omega
      obtain ⟨tns, tincrs, heq, hchain, hlast, hlen, hsum, hincrs, hsizes⟩ :=
        ih (n + schedIncr mb pct total n) hn0' hle hf'
      have hival : ival (n :: (n + schedIncr mb pct total n) :: tns)
          = (n, n + schedIncr mb pct total n)
              :: ival ((n + schedIncr mb pct total n) :: tns) := by
        simp [ival]
      refine ⟨(n + schedIncr mb pct total n) :: tns,
              schedIncr mb pct total n :: tincrs, ?_, ?_, ?_, ?_, ?_, ?_, ?_⟩
      · rw [schedTail]
        simp only [if_pos h, heq]
      · exact List.Chain'.cons (by omega) hchain
      · rw [List.getLast?_cons_cons]
        exact hlast
      · simpa using hlen
      · intro j hj
        match j with
        | 0 => simp
        | j + 1 =>
          have hj' : j ≤ tincrs.length := by
            simpa using hj
          simp only [List.take_succ_cons, List.sum_cons, List.get?]
          rw [hsum j hj']
          congr 1
          omega
      · rw [hival, List.map_cons, ← hincrs]
        congr 1
        omega
      · intro p hp
        rw [hival] at hp
        rcases List.mem_cons.mp hp with hp | hp
        · subst hp
          dsimp only
          refine ⟨hn0, ?_⟩
          omega
        · exact hsizes p hp
    · have hnt' : n = total := by omega
      refine ⟨[], [], ?_, ?_, ?_, ?_, ?_, ?_, ?_⟩
      · rw [schedTail]
        simp only [if_neg h]
      · simp
      · simp [hnt']
      · simp
      · intro j hj
        simp only [List.length_nil, Nat.le_zero] at hj
        subst hj
        simp
      · simp [ival]
      · simp [ival]

lemma chain_le_getLast? :
    ∀ (l : List ℤ) (a b : ℤ), List.Chain' (· ≤ ·) (a :: l) →
      (a :: l).getLast? = some b → a ≤ b := by
  intro l
  induction l with
  | nil =>
    intro a b _ hlast
    simp at hlast
    omega
  | cons c l' ih =>
    intro a b hchain hlast
    rw [List.chain'_cons] at hchain
    rw [List.getLast?_cons_cons] at hlast
    exact le_trans hchain.1 (ih c b hchain.2 hlast)

lemma unionIvals_ival :
    ∀ (l : List ℤ) (a total : ℤ), List.Chain' (· ≤ ·) (a :: l) →
      (a :: l).getLast? = some total →
      unionIvals (ival (a :: l)) = Set.Ico a total := by
  intro l
  induction l with
  | nil =>
    intro a total _ hlast
    simp at hlast
    subst hlast
    simp [ival, unionIvals]
  | cons c l' ih =>
    intro a total hchain hlast
    rw [List.chain'_cons] at hchain
    rw [List.getLast?_cons_cons] at hlast
    have hiv : ival (a :: c :: l') = (a, c) :: ival (c :: l') := by simp [ival]
    have hun : unionIvals ((a, c) :: ival (c :: l'))
        = Set.Ico a c ∪ unionIvals (ival (c :: l')) := rfl
    rw [hiv, hun, ih c total hchain.2 hlast]
    exact Set.Ico_union_Ico_eq_Ico hchain.1 (chain_le_getLast? l' c total hchain.2 hlast)

lemma ival_fst_ge :
    ∀ (l : List ℤ) (a : ℤ), List.Chain' (· ≤ ·) (a :: l) →
      ∀ q ∈ ival (a :: l), a ≤ q.1 := by
  intro l
  induction l with
  | nil => intro a _ q hq; simp [ival] at hq
  | cons c l' ih =>
    intro a hchain q hq
    rw [List.chain'_cons] at hchain
    have hiv : ival (a :: c :: l') = (a, c) :: ival (c :: l') := by simp [ival]
    rw [hiv] at hq
    rcases List.mem_cons.mp hq with hq | hq
    · subst hq; exact le_refl a
    · exact le_trans hchain.1 (ih c hchain.2 q hq)

lemma ival_pairwise_le :
    ∀ (l : List ℤ) (a : ℤ), List.Chain' (· ≤ ·) (a :: l) →
      (ival (a :: l)).Pairwise (fun p q => p.2 ≤ q.1) := by
  intro l
  induction l with
  | nil => intro a _; simp [ival]
  | cons c l' ih =>
    intro a hchain
    rw [List.chain'_cons] at hchain
    have hiv : ival (a :: c :: l') = (a, c) :: ival (c :: l') := by simp [ival]
    rw [hiv]
    refine List.Pairwise.cons ?_ (ih c hchain.2)
    intro q hq
    exact ival_fst_ge l' c hchain.2 q hq

lemma Ico_disjoint_of_le {a b c d : ℤ} (h : b ≤ c) :
    Disjoint (Set.Ico a b) (Set.Ico c d) := by
  rw [Set.disjoint_left]
  intro x hx hx'
  rw [Set.mem_Ico] at hx hx'
  omega

lemma ival_lt :
    ∀ (l : List ℤ) (a : ℤ), List.Chain' (· < ·) (a :: l) →
      ∀ q ∈ ival (a :: l), q.1 < q.2 := by
  intro l
  induction l with
  | nil => intro a _ q hq; simp [ival] at hq
  | cons c l' ih =>
    intro a hchain q hq
    rw [List.chain'_cons] at hchain
    have hiv : ival (a :: c :: l') = (a, c) :: ival (c :: l') := by simp [ival]
    rw [hiv] at hq
    rcases List.mem_cons.mp hq with hq | hq
    · subst hq; exact hchain.1
    · exact ih c hchain.2 q hq

/-- C1.  For every `total_rows ≥ min_batch ≥ 1` and `incr_batch_pct ≥ 0`,
the scheduler loop of `run_simulation` terminates and produces a boundary
list that starts at `0`, ends at `total_rows`, is strictly increasing,
whose consecutive half-open intervals have union exactly `[0, total_rows)`
and are pairwise disjoint; the first interval has size `min_batch`, every
subsequent interval has size
`max(min_batch, floor(incr_batch_pct * rows_seen))` truncated at
`total_rows` (expressed with `min`), and the truncation can only affect
an interval ending at `total_rows` (a non-final interval has exactly the
untruncated size). -/
theorem C1_batch_schedule (mb : ℤ) (pct : ℚ) (total : ℤ)
    (hmb : 1 ≤ mb) (hpct : 0 ≤ pct) (htot : mb ≤ total) :
    ∃ ns incrs, simSchedule mb pct total = some (ns, incrs) ∧
      ns.head? = some 0 ∧
      ns.getLast? = some total ∧
      List.Chain' (· < ·) ns ∧
      unionIvals (ival ns) = Set.Ico 0 total ∧
      (ival ns).Pairwise
        (fun p q => Disjoint (Set.Ico p.1 p.2) (Set.Ico q.1 q.2)) ∧
      (∀ p ∈ ival ns, p.1 = 0 → p.2 - p.1 = mb) ∧
      (∀ p ∈ ival ns, 0 < p.1 →
        p.2 - p.1 = min (max mb ⌊pct * (p.1 : ℚ)⌋) (total - p.1)) ∧
      (∀ p ∈ ival ns, 0 < p.1 → p.2 < total →
        p.2 - p.1 = max mb ⌊pct * (p.1 : ℚ)⌋) := by
  have h0t : (0 : ℤ) ≤ total := by omega
  obtain ⟨tns, tincrs, heq, hchain, hlast, hlen, hsum, hincrs, hsizes⟩ :=
    schedTail_spec mb pct total hmb (total.toNat + 1) 0 (le_refl 0) h0t (by omega)
  have hchainle : List.Chain' (· ≤ ·) (0 :: tns) :=
    List.Chain'.imp (fun a b h => le_of_lt h) hchain
  refine ⟨0 :: tns, tincrs, ?_, rfl, hlast, hchain, ?_, ?_, ?_, ?_, ?_⟩
  · simp only [simSchedule, buildSchedule, heq, Option.map_some']
  · exact unionIvals_ival tns 0 total hchainle hlast
  · exact List.Pairwise.imp (fun h => Ico_disjoint_of_le h)
      (ival_pairwise_le tns 0 hchainle)
  · intro p hp hp1
    have hs := (hsizes p hp).2
    rw [hp1] at hs
    have htr : truncRat (pct * ((0 : ℤ) : ℚ)) = 0 := by
      simp [truncRat]
    have hsi : schedIncr mb pct total 0 = mb := by
      rw [schedIncr_eq_min, htr]
      have h1 : max mb 0 = mb := by omega
      rw [h1]
      omega
    rw [hsi] at hs
    omega
  · intro p hp hp1
    have hs := (hsizes p hp).2
    rw [hs, schedIncr_eq_min]
    have hnn : (0 : ℚ) ≤ pct * ((p.1 : ℤ) : ℚ) := by
      have : (0 : ℚ) ≤ ((p.1 : ℤ) : ℚ) := by
        exact_mod_cast le_of_lt hp1
      exact mul_nonneg hpct this
    rw [truncRat_of_nonneg hnn]
  · intro p hp hp1 hp2
    have hs := (hsizes p hp).2
    have hlt := ival_lt tns 0 hchain p hp
    have hmin : p.2 - p.1 = min (max mb ⌊pct * ((p.1 : ℤ) : ℚ)⌋) (total - p.1) := by
      rw [hs, schedIncr_eq_min]
      have hnn : (0 : ℚ) ≤ pct * ((p.1 : ℤ) : ℚ) := by
        have : (0 : ℚ) ≤ ((p.1 : ℤ) : ℚ) := by
          exact_mod_cast le_of_lt hp1
        exact mul_nonneg hpct this
      rw [truncRat_of_nonneg hnn]
    omega

/-- Witness for C1 at `(min_batch, incr_batch_pct, total_rows) = (4, 1/2, 10)`. -/
theorem C1_batch_schedule_witness :
    (1 : ℤ) ≤ 4 ∧ (0 : ℚ) ≤ 1/2 ∧ (4 : ℤ) ≤ 10 ∧
    (∃ ns incrs, simSchedule 4 (1/2) 10 = some (ns, incrs) ∧
      ns.head? = some 0 ∧
      ns.getLast? = some 10 ∧
      List.Chain' (· < ·) ns ∧
      unionIvals (ival ns) = Set.Ico 0 10 ∧
      (ival ns).Pairwise
        (fun p q => Disjoint (Set.Ico p.1 p.2) (Set.Ico q.1 q.2)) ∧
      (∀ p ∈ ival ns, p.1 = 0 → p.2 - p.1 = 4) ∧
      (∀ p ∈ ival ns, 0 < p.1 →
        p.2 - p.1 = min (max 4 ⌊(1/2 : ℚ) * (p.1 : ℚ)⌋) (10 - p.1)) ∧
      (∀ p ∈ ival ns, 0 < p.1 → p.2 < 10 →
        p.2 - p.1 = max 4 ⌊(1/2 : ℚ) * (p.1 : ℚ)⌋)) :=
  ⟨by decide, by norm_num, by decide,
   C1_batch_schedule 4 (1/2) 10 (by decide) (by norm_num) (by decide)⟩

lemma schedTail_step (fuel : ℕ) (mb : ℤ) (pct : ℚ) (total n : ℤ)
    (h : n < total) :
    schedTail (fuel + 1) mb pct total n
      = Option.map
          (fun p => ((n + schedIncr mb pct total n) :: p.1,
                     schedIncr mb pct total n :: p.2))
          (schedTail fuel mb pct total (n + schedIncr mb pct total n)) := by
  rw [schedTail, if_pos h]
  cases schedTail fuel mb pct total (n + schedIncr mb pct total n) with
  | none => rfl
  | some p => cases p; rfl

lemma schedTail_done (fuel : ℕ) (mb : ℤ) (pct : ℚ) (total n : ℤ)
    (h : ¬ n < total) :
    schedTail (fuel + 1) mb pct total n = some ([], []) := by
  rw [schedTail]
  exact if_neg h

lemma sched_4_half_10 :
    simSchedule 4 (1/2) 10 = some ([0, 4, 8, 10], [4, 4, 2]) := by
  have e0 : schedIncr 4 (1/2) 10 0 = 4 := by norm_num [schedIncr, truncRat]
  have e4 : schedIncr 4 (1/2) 10 4 = 4 := by norm_num [schedIncr, truncRat]
  have e8 : schedIncr 4 (1/2) 10 8 = 2 := by norm_num [schedIncr, truncRat]
  have h1 : schedTail 11 4 (1/2) 10 0
      = Option.map (fun p => (4 :: p.1, 4 :: p.2)) (schedTail 10 4 (1/2) 10 4) := by
    rw [schedTail_step 10 4 (1/2) 10 0 (by norm_num), e0]
    norm_num
  have h2 : schedTail 10 4 (1/2) 10 4
      = Option.map (fun p => (8 :: p.1, 4 :: p.2)) (schedTail 9 4 (1/2) 10 8) := by
    rw [schedTail_step 9 4 (1/2) 10 4 (by norm_num), e4]
    norm_num
  have h3 : schedTail 9 4 (1/2) 10 8
      = Option.map (fun p => (10 :: p.1, 2 :: p.2)) (schedTail 8 4 (1/2) 10 10) := by
    rw [schedTail_step 8 4 (1/2) 10 8 (by norm_num), e8]
    norm_num
  have h4 : schedTail 8 4 (1/2) 10 10 = some ([], []) :=
    schedTail_done 7 4 (1/2) 10 10 (by norm_num)
  show buildSchedule 4 (1/2) 10 ((10 : ℤ).toNat + 1) = _
  unfold buildSchedule
  rw [show (10 : ℤ).toNat + 1 = 11 from rfl, h1, h2, h3, h4]
  rfl

/-- C2 counterexample.  The claim that the boundaries for
`total_rows=10, min_batch=4, incr_batch_pct=0.5` are `[0,4,6,9,10]` is
false on the code: the increment is `max(min_batch, int(0.5*n))`, so the
second batch has size `max(4, 2) = 4`, not `2`. -/
theorem C2_counterexample :
    (simSchedule 4 (1/2) 10).map (fun p => p.1) ≠ some [0, 4, 6, 9, 10] := by
  rw [sched_4_half_10]
  decide

/-- C2 amended.  For `total_rows=10, min_batch=4, incr_batch_pct=0.5`
the scheduler loop produces boundaries `[0, 4, 8, 10]` (increments
`[4, 4, 2]`). -/
theorem C2_amended_schedule :
    simSchedule 4 (1/2) 10 = some ([0, 4, 8, 10], [4, 4, 2]) :=
  sched_4_half_10

lemma truncRat_nonpos {q : ℚ} (h : q ≤ 0) : truncRat q ≤ 0 := by
  unfold truncRat
  by_cases h0 : (0 : ℚ) ≤ q
  · have hq : q = 0 := le_antisymm h h0
    subst hq
    simp
  · simp only [if_neg h0]
    have h1 : (0 : ℚ) ≤ -q := by linarith
    have h2 := Int.floor_nonneg.mpr h1
    omega

lemma schedIncr_stuck {mb : ℤ} (pct : ℚ) {total : ℤ}
    (hmb : mb ≤ 0) (ht : 0 < total) : schedIncr mb pct total 0 = 0 := by
  unfold schedIncr
  have htr : truncRat (pct * ((0 : ℤ) : ℚ)) = 0 := by simp [truncRat]
  rw [htr]
  have h1 : max mb 0 = 0 := by omega
  rw [h1]
  rw [if_neg (by omega)]

lemma schedTail_stuck (mb : ℤ) (pct : ℚ) (total : ℤ)
    (hmb : mb ≤ 0) (ht : 0 < total) :
    ∀ fuel, schedTail fuel mb pct total 0 = none := by
  intro fuel
  induction fuel with
  | zero => rfl
  | succ fuel ih =>
    rw [schedTail]
    rw [if_pos ht]
    rw [schedIncr_stuck pct hmb ht]
    simp only [add_zero]
    rw [ih]

lemma schedIncr_nonpos_pct {mb : ℤ} {pct : ℚ} (total : ℤ)
    (hmb : 1 ≤ mb) (hp : pct ≤ 0) {n : ℤ} (hn : 0 ≤ n) :
    schedIncr mb pct total n = schedIncr mb 0 total n := by
  unfold schedIncr
  have hn' : (0 : ℚ) ≤ ((n : ℤ) : ℚ) := by exact_mod_cast hn
  have hq : pct * ((n : ℤ) : ℚ) ≤ 0 := mul_nonpos_of_nonpos_of_nonneg hp hn'
  have h2 : max mb (truncRat (pct * ((n : ℤ) : ℚ))) = mb :=
    max_eq_left (le_trans (truncRat_nonpos hq) (by omega))
  have htr0 : truncRat ((0 : ℚ) * ((n : ℤ) : ℚ)) = 0 := by
    rw [zero_mul]
    simp [truncRat]
  have h3 : max mb (truncRat ((0 : ℚ) * ((n : ℤ) : ℚ))) = mb := by
    rw [htr0]
    exact max_eq_left (by omega)
  rw [h2, h3]

lemma schedTail_nonpos_pct (mb : ℤ) (pct : ℚ) (total : ℤ)
    (hmb : 1 ≤ mb) (hp : pct ≤ 0) :
    ∀ (fuel : ℕ) (n : ℤ), 0 ≤ n →
      schedTail fuel mb pct total n = schedTail fuel mb 0 total n := by
  intro fuel
  induction fuel with
  | zero => intro n _; rfl
  | succ fuel ih =>
    intro n hn
    simp only [schedTail]
    by_cases h : n < total
    · simp only [if_pos h]
      rw [schedIncr_nonpos_pct total hmb hp hn]
      rw [ih (n + schedIncr mb 0 total n)
            (by have := schedIncr_pos (0 : ℚ) hmb h; omega)]
    · simp only [if_neg h]

/-- C9 counterexample.  The driver performs no fail-fast validation: at
`min_batch = 0, incr_batch_pct = 1/2, total_rows = 10` the scheduler
loop's increment at `n = 0` is `0`, so the loop makes no progress — it
diverges instead of raising any error (`none` = fuel exhausted without
terminating, for the driver's own fuel and for fuel 50 alike). -/
theorem C9_counterexample :
    schedIncr 0 (1/2) 10 0 = 0 ∧
    buildSchedule 0 (1/2) 10 50 = none ∧
    simSchedule 0 (1/2) 10 = none := by
  refine ⟨by norm_num [schedIncr, truncRat], ?_, ?_⟩
  · unfold buildSchedule
    rw [schedTail_stuck 0 (1/2) 10 (by norm_num) (by norm_num) 50]
    rfl
  · unfold simSchedule buildSchedule
    rw [schedTail_stuck 0 (1/2) 10 (by norm_num) (by norm_num)]
    rfl

/-- C9 amended.  `run_simulation` validates nothing: for non-positive
`min_batch` (and a non-empty dataset) the scheduler loop never
terminates, whatever the fuel, so the driver produces neither a schedule
nor an error; and for negative `incr_batch_pct` (with `min_batch ≥ 1`)
the driver silently behaves exactly as if `incr_batch_pct = 0`, i.e.
uniform `min_batch`-sized batches, rather than reporting the malformed
fraction. -/
theorem C9_amended_no_validation :
    (∀ (mb : ℤ) (pct : ℚ) (total : ℤ) (fuel : ℕ), mb ≤ 0 → 0 < total →
        buildSchedule mb pct total fuel = none)
    ∧ (∀ (mb : ℤ) (pct : ℚ) (total : ℤ) (fuel : ℕ), 1 ≤ mb → pct ≤ 0 →
        buildSchedule mb pct total fuel = buildSchedule mb 0 total fuel)
    ∧ (∀ {α σ : Type} (rng : NpRandom) (X : ℕ → α) (total : ℕ)
        (y : ℕ → ℕ → ℚ) (nchoices : ℕ) (models : List (Policy α σ))
        (rewards0 : List (List ℚ)) (tcounts0 : List ℕ) (mb : ℤ) (pct : ℚ)
        (s0 : ℕ), mb ≤ 0 → 0 < total →
        run_simulation rng X total y nchoices models rewards0 tcounts0 mb pct s0
          = none) := by
  refine ⟨?_, ?_, ?_⟩
  · intro mb pct total fuel hmb ht
    unfold buildSchedule
    rw [schedTail_stuck mb pct total hmb ht fuel]
    rfl
  · intro mb pct total fuel hmb hp
    unfold buildSchedule
    rw [schedTail_nonpos_pct mb pct total hmb hp fuel 0 (le_refl 0)]
  · intro α σ rng X total y nchoices models rewards0 tcounts0 mb pct s0 hmb ht
    have ht' : (0 : ℤ) < (total : ℤ) := by exact_mod_cast ht
    have hnone : simSchedule mb pct (total : ℤ) = none := by
      unfold simSchedule buildSchedule
      rw [schedTail_stuck mb pct (total : ℤ) hmb ht' _]
      rfl
    simp [run_simulation, hnone]

/-- Witness for C9's amended claim at concrete inputs. -/
theorem C9_amended_no_validation_witness :
    ((0 : ℤ) ≤ 0 ∧ (0 : ℤ) < 10 ∧ buildSchedule 0 (1/2) 10 5 = none) ∧
    ((1 : ℤ) ≤ 3 ∧ (-1 : ℚ) ≤ 0 ∧
      buildSchedule 3 (-1) 10 4 = buildSchedule 3 0 10 4) ∧
    ((0 : ℤ) ≤ 0 ∧ 0 < 7 ∧
      run_simulation rngW XW 7 yW 3 [polW] [[]] [0] 0 (1/2) 5 = none) :=
  ⟨⟨le_refl 0, by decide,
    C9_amended_no_validation.1 0 (1/2) 10 5 (le_refl 0) (by decide)⟩,
   ⟨by decide, by norm_num,
    C9_amended_no_validation.2.1 3 (-1) 10 4 (by decide) (by norm_num)⟩,
   ⟨le_refl 0, by decide,
    C9_amended_no_validation.2.2 rngW XW 7 yW 3 [polW] [[]] [0] 0 (1/2) 5
      (le_refl 0) (by decide)⟩⟩

lemma rows_length {α : Type} (X : ℕ → α) (st en : ℕ) :
    (rows X st en).length = en - st := by
  simp [rows]

lemma simulate_rounds_pol {α σ : Type} (X : ℕ → α) (y : ℕ → ℕ → ℚ)
    (st en : ℕ) (pr : PolRun α σ) (fit : Bool) :
    (simulate_rounds X y st en pr fit).pol = pr.pol := rfl

lemma simulate_rounds_hist {α σ : Type} (X : ℕ → α) (y : ℕ → ℕ → ℚ)
    (st en : ℕ) (pr : PolRun α σ) (fit : Bool) :
    (simulate_rounds X y st en pr fit).hist
      = pr.hist ++ (pr.pol.predict pr.state (rows X st en) st).map (· % 256) := rfl

lemma simulate_rounds_rewards {α σ : Type} (X : ℕ → α) (y : ℕ → ℕ → ℚ)
    (st en : ℕ) (pr : PolRun α σ) (fit : Bool) :
    (simulate_rounds X y st en pr fit).rewards
      = pr.rewards ++ [batchRewardSum y st en
          ((pr.pol.predict pr.state (rows X st en) st).map (· % 256))] := rfl

lemma simulate_rounds_hist_len {α σ : Type} (X : ℕ → α) (y : ℕ → ℕ → ℚ)
    (st en : ℕ) (pr : PolRun α σ) (fit : Bool)
    (hp : (pr.pol.predict pr.state (rows X st en) st).length = en - st)
    (hse : st ≤ en) (hl : pr.hist.length = st) :
    (simulate_rounds X y st en pr fit).hist.length = en := by
  rw [simulate_rounds_hist, List.length_append, List.length_map, hp, hl]
  omega

lemma runRounds_eq_map {α σ : Type} (X : ℕ → α) (y : ℕ → ℕ → ℚ) :
    ∀ (bounds : List (ℕ × ℕ)) (ps : List (PolRun α σ)),
      runRounds X y bounds ps = ps.map (polFold X y bounds) := by
  intro bounds
  induction bounds with
  | nil =>
    intro ps
    rw [show polFold X y ([] : List (ℕ × ℕ)) = id from rfl, List.map_id]
    rfl
  | cons b bs ih =>
    intro ps
    show runRounds X y bs (ps.map (fun pr => simulate_rounds X y b.1 b.2 pr)) = _
    rw [ih, List.map_map]
    rfl

lemma polFold_rewards_length {α σ : Type} (X : ℕ → α) (y : ℕ → ℕ → ℚ) :
    ∀ (bounds : List (ℕ × ℕ)) (pr : PolRun α σ),
      (polFold X y bounds pr).rewards.length
        = pr.rewards.length + bounds.length := by
  intro bounds
  induction bounds with
  | nil => intro pr; simp [polFold]
  | cons b bs ih =>
    intro pr
    show (polFold X y bs (simulate_rounds X y b.1 b.2 pr)).rewards.length = _
    rw [ih, simulate_rounds_rewards, List.length_append]
    simp
    omega

lemma zip_get?_eq {γ δ : Type} :
    ∀ (l : List γ) (l' : List δ) (i : ℕ) (a : γ) (b : δ),
      l.get? i = some a → l'.get? i = some b →
      (l.zip l').get? i = some (a, b) := by
  intro l
  induction l with
  | nil => intro l' i a b h _; simp at h
  | cons c cs ih =>
    intro l' i a b h h'
    cases l' with
    | nil => simp at h'
    | cons d ds =>
      cases i with
      | zero =>
        simp at h h'
        subst h
        subst h'
        rfl
      | succ i =>
        simp only [List.get?] at h h' ⊢
        exact ih ds i a b h h'

lemma initRuns_get? {α σ : Type} (models : List (Policy α σ)) (states : List σ)
    (rewards0 : List (List ℚ)) (tcounts0 : List ℕ) (hist0 : List ℕ) (i : ℕ)
    (P : Policy α σ) (st : σ) (r : List ℚ) (t : ℕ)
    (hP : models.get? i = some P) (hst : states.get? i = some st)
    (hr : rewards0.get? i = some r) (ht : tcounts0.get? i = some t) :
    (initRuns models states rewards0 tcounts0 hist0).get? i
      = some ⟨P, st, r, hist0, t⟩ := by
  unfold initRuns
  rw [List.get?_map,
      zip_get?_eq _ _ i _ _ (zip_get?_eq _ _ i _ _ hP hst)
        (zip_get?_eq _ _ i _ _ hr ht)]
  rfl

lemma warmFits_length {α σ : Type} (feats : List α) (a : List ℕ) (r : List ℚ) :
    ∀ (ms : List (Policy α σ)) (s : ℕ),
      (warmFits feats a r ms s).1.length = ms.length := by
  intro ms
  induction ms with
  | nil => intro s; rfl
  | cons P rest ih =>
    intro s
    simp only [warmFits, List.length_cons]
    rw [ih]

lemma warmFits_get? {α σ : Type} (feats : List α) (a : List ℕ) (r : List ℚ) :
    ∀ (ms : List (Policy α σ)) (s i : ℕ) (P : Policy α σ),
      ms.get? i = some P →
      ∃ s', (warmFits feats a r ms s).1.get? i
        = some ((P.fit P.init feats a r false s').1) := by
  intro ms
  induction ms with
  | nil => intro s i P h; simp at h
  | cons Q rest ih =>
    intro s i P h
    cases i with
    | zero =>
      simp at h
      subst h
      exact ⟨s, rfl⟩
    | succ i =>
      simp only [List.get?] at h
      obtain ⟨s', hs'⟩ := ih ((Q.fit Q.init feats a r false s).2) i P h
      exact ⟨s', hs'⟩

lemma warmStart_get? {α σ : Type} (rng : NpRandom) (X : ℕ → α) (y : ℕ → ℕ → ℚ)
    (nchoices : ℕ) (models : List (Policy α σ)) (rewards0 : List (List ℚ))
    (tcounts0 : List ℕ) (mbN s0 : ℕ) (i : ℕ) (P : Policy α σ) (r : List ℚ)
    (t : ℕ) (hP : models.get? i = some P) (hr : rewards0.get? i = some r)
    (ht : tcounts0.get? i = some t) :
    ∃ s' : ℕ,
      (warmStart rng X y nchoices models rewards0 tcounts0 mbN s0).get? i
        = some ⟨P,
            (P.fit P.init (rows X 0 mbN) (rng.randint s0 nchoices mbN).1
              (((rowIdx 0 mbN).zip (rng.randint s0 nchoices mbN).1).map
                (fun p => y p.1 p.2)) false s').1,
            r, (rng.randint s0 nchoices mbN).1, t⟩ := by
  obtain ⟨s', hs'⟩ := warmFits_get? (rows X 0 mbN) (rng.randint s0 nchoices mbN).1
    (((rowIdx 0 mbN).zip (rng.randint s0 nchoices mbN).1).map (fun p => y p.1 p.2))
    models (rng.randint s0 nchoices mbN).2 i P hP
  exact ⟨s', initRuns_get? _ _ _ _ _ i _ _ _ _ hP hs' hr ht⟩

/-- C8.  One policy's trajectory through the batch loop depends only on
its own entry: if two policy lists agree at position `i` (everything
else — including any other policy's `predict`/`fit`, i.e. an injected
fault — may differ arbitrarily), the entire per-policy record at `i`
(model state, reward log, action history, timing log) after any batch
sequence is identical.  The isolation holds because each stochastic step
of `simulate_rounds` is preceded by a deterministic reseed of the
generator, so nothing flows between policies. -/
theorem C8_policy_frame {α σ : Type} (X : ℕ → α) (y : ℕ → ℕ → ℚ)
    (bounds : List (ℕ × ℕ)) (ps ps' : List (PolRun α σ)) (i : ℕ)
    (h : ps.get? i = ps'.get? i) :
    (runRounds X y bounds ps).get? i = (runRounds X y bounds ps').get? i := by
  rw [runRounds_eq_map, runRounds_eq_map, List.get?_map, List.get?_map, h]

/-- Witness for C8: corrupting policy 0 (different policy, state, logs)
leaves policy 1's record after a batch unchanged. -/
theorem C8_policy_frame_witness :
    [prW, prW].get? 1 = [prW2, prW].get? 1 ∧
    (runRounds XW yW [(2, 4)] [prW, prW]).get? 1
      = (runRounds XW yW [(2, 4)] [prW2, prW]).get? 1 :=
  ⟨rfl, C8_policy_frame XW yW [(2, 4)] [prW, prW] [prW2, prW] 1 rfl⟩

/-- C7.  The embedded simulation is a pure function of its inputs; all
randomness is derived from the explicit generator state, which the
source reseeds from `batch_st` before every action selection and to the
fixed `random_seed` before every refit (see `simulate_rounds`).  Hence
two runs on a 20-row, 3-action dataset with `min_batch = 5` and the same
seed set before the run produce identical results — in particular
identical reward logs and action histories for every policy. -/
theorem C7_determinism {α σ : Type} (rng : NpRandom) (X : ℕ → α)
    (y : ℕ → ℕ → ℚ) (models : List (Policy α σ)) (rewards0 : List (List ℚ))
    (tcounts0 : List ℕ) (pct : ℚ) (s0 s0' : ℕ) (h : s0 = s0') :
    run_simulation rng X 20 y 3 models rewards0 tcounts0 5 pct s0
      = run_simulation rng X 20 y 3 models rewards0 tcounts0 5 pct s0' := by
  rw [h]

/-- Witness for C7 at a concrete dataset, policy and seed. -/
theorem C7_determinism_witness :
    7 = 7 ∧
    run_simulation rngW XW 20 yW 3 [polW] [[]] [0] 5 (1/2) 7
      = run_simulation rngW XW 20 yW 3 [polW] [[]] [0] 5 (1/2) 7 :=
  ⟨rfl, C7_determinism rngW XW yW [polW] [[]] [0] (1/2) 7 7 rfl⟩

/-- C10.  Unconditionally — whatever the policy predicts, however many
actions the label matrix has — every action recorded in the history
during a simulated batch is the predicted action reduced modulo `2^8`
(`astype('uint8')`), and the reward lookup uses the same reduced values:
with more than 256 actions, a prediction of 256 or above is recorded and
scored wrapped, silently.  When the action count is at most 256 and the
predictions are in range, the reduction is the identity, so recorded =
predicted. -/
theorem C10_uint8_cast {α σ : Type} (X : ℕ → α) (y : ℕ → ℕ → ℚ)
    (st en : ℕ) (pr : PolRun α σ) (fit : Bool) :
    (simulate_rounds X y st en pr fit).hist
        = pr.hist ++ (pr.pol.predict pr.state (rows X st en) st).map (· % 256)
    ∧ (simulate_rounds X y st en pr fit).rewards
        = pr.rewards ++ [batchRewardSum y st en
            ((pr.pol.predict pr.state (rows X st en) st).map (· % 256))]
    ∧ (∀ nchoices : ℕ, nchoices ≤ 256 →
        (∀ v ∈ pr.pol.predict pr.state (rows X st en) st, v < nchoices) →
        (pr.pol.predict pr.state (rows X st en) st).map (· % 256)
          = pr.pol.predict pr.state (rows X st en) st) := by
  refine ⟨rfl, rfl, ?_⟩
  intro nchoices hch hval
  have hmod : ∀ v ∈ pr.pol.predict pr.state (rows X st en) st, v % 256 = v :=
    fun v hv => Nat.mod_eq_of_lt (lt_of_lt_of_le (hval v hv) hch)
  calc (pr.pol.predict pr.state (rows X st en) st).map (· % 256)
      = (pr.pol.predict pr.state (rows X st en) st).map id :=
        List.map_congr_left hmod
    _ = pr.pol.predict pr.state (rows X st en) st := List.map_id _

/-- Witness for C10 in both regimes.  Wrap regime: `prW3`'s policy
predicts action `300`, which the round records and scores as
`300 % 256 = 44`, silently.  Identity regime: `prW`'s in-range
predictions under 3 actions are recorded unchanged. -/
theorem C10_uint8_cast_witness :
    (prW3.pol.predict prW3.state (rows XW 2 4) 2).map (· % 256) = [44, 44] ∧
    (simulate_rounds XW yW 2 4 prW3 true).hist
        = prW3.hist ++ (prW3.pol.predict prW3.state (rows XW 2 4) 2).map (· % 256) ∧
    (simulate_rounds XW yW 2 4 prW3 true).rewards
        = prW3.rewards ++ [batchRewardSum yW 2 4
            ((prW3.pol.predict prW3.state (rows XW 2 4) 2).map (· % 256))] ∧
    3 ≤ 256 ∧
    (∀ v ∈ prW.pol.predict prW.state (rows XW 2 4) 2, v < 3) ∧
    (prW.pol.predict prW.state (rows XW 2 4) 2).map (· % 256)
        = prW.pol.predict prW.state (rows XW 2 4) 2 :=
  ⟨by decide,
   (C10_uint8_cast XW yW 2 4 prW3 true).1,
   (C10_uint8_cast XW yW 2 4 prW3 true).2.1,
   by decide, by decide,
   (C10_uint8_cast XW yW 2 4 prW true).2.2 3 (by decide) (by decide)⟩

/-- C5.  A simulated round refits the policy on the full row prefix
`[0, end)` — feature rows `X[:end]`, the complete accumulated action
history, and the rewards looked up for that whole history — in
warm-start mode with the fixed refit seed; all three training inputs
have size `end`, not the batch size. -/
theorem C5_full_refit {α σ : Type} (X : ℕ → α) (y : ℕ → ℕ → ℚ) (st en : ℕ)
    (pr : PolRun α σ) (hl : pr.hist.length = st) (hse : st ≤ en)
    (hp : (pr.pol.predict pr.state (rows X st en) st).length = en - st) :
    (simulate_rounds X y st en pr).state
      = (pr.pol.fit pr.state (rows X 0 en)
          (pr.hist ++ (pr.pol.predict pr.state (rows X st en) st).map (· % 256))
          (((rowIdx 0 en).zip
              (pr.hist ++ (pr.pol.predict pr.state (rows X st en) st).map (· % 256))).map
            (fun p => y p.1 p.2))
          true random_seed).1
    ∧ (rows X 0 en).length = en
    ∧ (pr.hist ++ (pr.pol.predict pr.state (rows X st en) st).map (· % 256)).length = en
    ∧ (((rowIdx 0 en).zip
          (pr.hist ++ (pr.pol.predict pr.state (rows X st en) st).map (· % 256))).map
        (fun p => y p.1 p.2)).length = en := by
  have hlen2 : (pr.hist ++ (pr.pol.predict pr.state (rows X st en) st).map (· % 256)).length
      = en := by
    rw [List.length_append, List.length_map, hl, hp]
    omega
  refine ⟨rfl, by simp [rows], hlen2, ?_⟩
  rw [List.length_map, List.length_zip, hlen2]
  simp [rowIdx]

/-- Witness for C5: the round for batch `[2, 5)` refits on all 5 rows. -/
theorem C5_full_refit_witness :
    prW.hist.length = 2 ∧ 2 ≤ 5 ∧
    (prW.pol.predict prW.state (rows XW 2 5) 2).length = 5 - 2 ∧
    ((simulate_rounds XW yW 2 5 prW).state
      = (prW.pol.fit prW.state (rows XW 0 5)
          (prW.hist ++ (prW.pol.predict prW.state (rows XW 2 5) 2).map (· % 256))
          (((rowIdx 0 5).zip
              (prW.hist ++ (prW.pol.predict prW.state (rows XW 2 5) 2).map (· % 256))).map
            (fun p => yW p.1 p.2))
          true random_seed).1
    ∧ (rows XW 0 5).length = 5
    ∧ (prW.hist ++ (prW.pol.predict prW.state (rows XW 2 5) 2).map (· % 256)).length = 5
    ∧ (((rowIdx 0 5).zip
          (prW.hist ++ (prW.pol.predict prW.state (rows XW 2 5) 2).map (· % 256))).map
        (fun p => yW p.1 p.2)).length = 5) :=
  ⟨rfl, by decide, by decide,
   C5_full_refit XW yW 2 5 prW rfl (by decide) (by decide)⟩

/-- C6.  The warm start draws one random action per row of the first
`min_batch` rows, each below the action count, drawn exactly once and
shared: every policy's action history starts as a copy of the same
vector; the reward vector is the label-matrix lookup at
`(row, chosen_action)`; and every policy's training entry point is
applied exactly once to that shared slice (`∃ s'` is the generator
state threaded through the un-reseeded warm-start fits; uniformity of
numpy's `randint` is a property of the environment, modelled by the
abstract oracle). -/
theorem C6_warm_start_shared {α σ : Type} (rng : NpRandom) (X : ℕ → α)
    (y : ℕ → ℕ → ℚ) (nchoices mbN s0 : ℕ) (models : List (Policy α σ))
    (rewards0 : List (List ℚ)) (tcounts0 : List ℕ)
    (hch : 0 < nchoices) (hr : rewards0.length = models.length)
    (ht : tcounts0.length = models.length) :
    (rng.randint s0 nchoices mbN).1.length = mbN
    ∧ (∀ v ∈ (rng.randint s0 nchoices mbN).1, v < nchoices)
    ∧ (∀ i, i < models.length →
        ((warmStart rng X y nchoices models rewards0 tcounts0 mbN s0).get? i).map
          (fun p => p.hist) = some (rng.randint s0 nchoices mbN).1)
    ∧ (∀ i (hi : i < models.length), ∃ s' : ℕ,
        ((warmStart rng X y nchoices models rewards0 tcounts0 mbN s0).get? i).map
          (fun p => p.state)
        = some ((models.get ⟨i, hi⟩).fit (models.get ⟨i, hi⟩).init (rows X 0 mbN)
            (rng.randint s0 nchoices mbN).1
            (((rowIdx 0 mbN).zip (rng.randint s0 nchoices mbN).1).map
              (fun p => y p.1 p.2)) false s').1) := by
  refine ⟨rng.randint_length s0 nchoices mbN,
          rng.randint_lt s0 nchoices mbN hch, ?_, ?_⟩
  · intro i hi
    obtain ⟨s', hs'⟩ := warmStart_get? rng X y nchoices models rewards0 tcounts0
      mbN s0 i (models.get ⟨i, hi⟩) (rewards0.get ⟨i, by omega⟩)
      (tcounts0.get ⟨i, by omega⟩) (List.get?_eq_get hi)
      (List.get?_eq_get (by omega)) (List.get?_eq_get (by omega))
    rw [hs']
    rfl
  · intro i hi
    obtain ⟨s', hs'⟩ := warmStart_get? rng X y nchoices models rewards0 tcounts0
      mbN s0 i (models.get ⟨i, hi⟩) (rewards0.get ⟨i, by omega⟩)
      (tcounts0.get ⟨i, by omega⟩) (List.get?_eq_get hi)
      (List.get?_eq_get (by omega)) (List.get?_eq_get (by omega))
    exact ⟨s', by rw [hs']; rfl⟩

/-- Witness for C6 with two policies sharing the same warm start. -/
theorem C6_warm_start_shared_witness :
    0 < 3 ∧ ([[], []] : List (List ℚ)).length = [polW, polW2].length ∧
    ([0, 0] : List ℕ).length = [polW, polW2].length ∧
    ((rngW.randint 11 3 4).1.length = 4
    ∧ (∀ v ∈ (rngW.randint 11 3 4).1, v < 3)
    ∧ (∀ i, i < [polW, polW2].length →
        ((warmStart rngW XW yW 3 [polW, polW2] [[], []] [0, 0] 4 11).get? i).map
          (fun p => p.hist) = some (rngW.randint 11 3 4).1)
    ∧ (∀ i (hi : i < [polW, polW2].length), ∃ s' : ℕ,
        ((warmStart rngW XW yW 3 [polW, polW2] [[], []] [0, 0] 4 11).get? i).map
          (fun p => p.state)
        = some (([polW, polW2].get ⟨i, hi⟩).fit ([polW, polW2].get ⟨i, hi⟩).init
            (rows XW 0 4) (rngW.randint 11 3 4).1
            (((rowIdx 0 4).zip (rngW.randint 11 3 4).1).map
              (fun p => yW p.1 p.2)) false s').1)) :=
  ⟨by decide, rfl, rfl,
   C6_warm_start_shared rngW XW yW 3 4 11 [polW, polW2] [[], []] [0, 0]
     (by decide) rfl rfl⟩

lemma zip_map_getD (y : ℕ → ℕ → ℚ) :
    ∀ (m st : ℕ) (acts : List ℕ), acts.length = m →
      ((List.range' st m).zip acts).map (fun p => y p.1 p.2)
        = (List.range' st m).map (fun r => y r (acts.getD (r - st) 0)) := by
  intro m
  induction m with
  | zero =>
    intro st acts h
    rw [List.length_eq_zero] at h
    subst h
    rfl
  | succ m ih =>
    intro st acts h
    cases acts with
    | nil => simp at h
    | cons a as =>
      have hlen : as.length = m := by simpa using h
      rw [List.range'_succ]
      simp only [List.zip_cons_cons, List.map_cons]
      congr 1
      · simp
      · rw [ih (st + 1) as hlen]
        apply List.map_congr_left
        intro r hr
        have hge : st + 1 ≤ r := (List.mem_range'_1.mp hr).1
        have hsub : r - st = (r - (st + 1)) + 1 := by omega
        rw [hsub]
        rfl

/-- C3.  The reward log gets exactly one entry per simulated batch and
none during the warm start, and the entry appended for batch
`[start, end)` is the sum over the batch's rows of
`label[row, action]`, where `action` is the value recorded at that
row's position of the (updated) action history. -/
theorem C3_reward_accounting {α σ : Type} (X : ℕ → α) (y : ℕ → ℕ → ℚ) :
    (∀ (bounds : List (ℕ × ℕ)) (ps : List (PolRun α σ)) (i : ℕ),
      ((runRounds X y bounds ps).get? i).map (fun p => p.rewards.length)
        = (ps.get? i).map (fun p => p.rewards.length + bounds.length))
    ∧ (∀ (rng : NpRandom) (nchoices mbN s0 i : ℕ) (models : List (Policy α σ))
        (rewards0 : List (List ℚ)) (tcounts0 : List ℕ),
        i < models.length → rewards0.length = models.length →
        tcounts0.length = models.length →
        ((warmStart rng X y nchoices models rewards0 tcounts0 mbN s0).get? i).map
          (fun p => p.rewards) = rewards0.get? i)
    ∧ (∀ (st en : ℕ) (pr : PolRun α σ), pr.hist.length = st → st ≤ en →
        (pr.pol.predict pr.state (rows X st en) st).length = en - st →
        (simulate_rounds X y st en pr).rewards
          = pr.rewards ++ [((rowIdx st en).map
              (fun r => y r ((simulate_rounds X y st en pr).hist.getD r 0))).sum]) := by
  refine ⟨?_, ?_, ?_⟩
  · intro bounds ps i
    rw [runRounds_eq_map, List.get?_map]
    cases hpi : ps.get? i with
    | none => rfl
    | some pr =>
      simp only [Option.map_some']
      rw [polFold_rewards_length]
  · intro rng nchoices mbN s0 i models rewards0 tcounts0 hi hr ht
    obtain ⟨s', hs'⟩ := warmStart_get? rng X y nchoices models rewards0 tcounts0
      mbN s0 i (models.get ⟨i, hi⟩) (rewards0.get ⟨i, by omega⟩)
      (tcounts0.get ⟨i, by omega⟩) (List.get?_eq_get hi)
      (List.get?_eq_get (by omega)) (List.get?_eq_get (by omega))
    rw [hs', List.get?_eq_get (show i < rewards0.length by omega)]
    rfl
  · intro st en pr hl hse hp
    have hlacts : ((pr.pol.predict pr.state (rows X st en) st).map (· % 256)).length
        = en - st := by
      rw [List.length_map, hp]
    rw [simulate_rounds_rewards]
    congr 1
    congr 1
    unfold batchRewardSum rowIdx
    rw [zip_map_getD y (en - st) st _ hlacts]
    apply congrArg
    apply List.map_congr_left
    intro r hr
    have hge : st ≤ r := (List.mem_range'_1.mp hr).1
    rw [simulate_rounds_hist X y st en pr true,
        List.getD_append_right pr.hist _ 0 r (by omega), hl]

/-- Witness for C3: one batch appends one entry, warm start appends
none, and the appended entry is the recorded-action reward sum. -/
theorem C3_reward_accounting_witness :
    (((runRounds XW yW [(2, 4)] [prW]).get? 0).map (fun p => p.rewards.length)
      = ([prW].get? 0).map (fun p => p.rewards.length + [(2, 4)].length))
    ∧ (0 < [polW].length ∧ ([[]] : List (List ℚ)).length = [polW].length ∧
        ([0] : List ℕ).length = [polW].length ∧
        ((warmStart rngW XW yW 3 [polW] [[]] [0] 4 11).get? 0).map
          (fun p => p.rewards) = ([[]] : List (List ℚ)).get? 0)
    ∧ (prW.hist.length = 2 ∧ 2 ≤ 5 ∧
        (prW.pol.predict prW.state (rows XW 2 5) 2).length = 5 - 2 ∧
        (simulate_rounds XW yW 2 5 prW).rewards
          = prW.rewards ++ [((rowIdx 2 5).map
              (fun r => yW r ((simulate_rounds XW yW 2 5 prW).hist.getD r 0))).sum]) :=
  ⟨(C3_reward_accounting XW yW).1 [(2, 4)] [prW] 0,
   ⟨by decide, rfl, rfl,
    (C3_reward_accounting XW yW).2.1 rngW 3 4 11 0 [polW] [[]] [0]
      (by decide) rfl rfl⟩,
   ⟨rfl, by decide, by decide,
    (C3_reward_accounting XW yW).2.2 2 5 prW rfl (by decide) (by decide)⟩⟩

lemma schedIncr_zero (mb : ℤ) (pct : ℚ) (total : ℤ)
    (hmb : 0 ≤ mb) (htot : mb ≤ total) : schedIncr mb pct total 0 = mb := by
  unfold schedIncr
  have htr : truncRat (pct * ((0 : ℤ) : ℚ)) = 0 := by simp [truncRat]
  rw [htr, max_eq_left hmb, if_neg (by omega)]

lemma polFold_hist_len {α σ : Type} (X : ℕ → α) (y : ℕ → ℕ → ℚ) :
    ∀ (bs : List (ℕ × ℕ)) (pr : PolRun α σ), PredictsPerRow pr.pol →
      BoundsChain pr.hist.length bs →
      (polFold X y bs pr).hist.length = boundsEnd pr.hist.length bs := by
  intro bs
  induction bs with
  | nil => intro pr _ _; rfl
  | cons b bs ih =>
    intro pr hcon hbc
    obtain ⟨hb1, hb2, hbc'⟩ := hbc
    have hstep : (simulate_rounds X y b.1 b.2 pr).hist.length = b.2 := by
      apply simulate_rounds_hist_len
      · rw [hcon pr.state (rows X b.1 b.2) b.1, rows_length]
      · omega
      · omega
    have hcon' : PredictsPerRow (simulate_rounds X y b.1 b.2 pr).pol := by
      rw [simulate_rounds_pol]
      exact hcon
    have hbc'' : BoundsChain (simulate_rounds X y b.1 b.2 pr).hist.length bs := by
      rw [hstep]
      exact hbc'
    show (polFold X y bs (simulate_rounds X y b.1 b.2 pr)).hist.length = _
    rw [ih _ hcon' hbc'', hstep]
    rfl

lemma ival_take_chain :
    ∀ (k : ℕ) (a : ℕ) (l : List ℕ), List.Chain' (· ≤ ·) (a :: l) →
      k ≤ l.length →
      BoundsChain a ((ival (a :: l)).take k)
      ∧ boundsEnd a ((ival (a :: l)).take k) = (a :: l).getD k 0 := by
  intro k
  induction k with
  | zero =>
    intro a l _ _
    exact ⟨trivial, rfl⟩
  | succ k ih =>
    intro a l hchain hk
    cases l with
    | nil => simp at hk
    | cons b l' =>
      rw [List.chain'_cons] at hchain
      have hiv : ival (a :: b :: l') = (a, b) :: ival (b :: l') := by simp [ival]
      rw [hiv, List.take_succ_cons]
      have hk' : k ≤ l'.length := by simpa using hk
      obtain ⟨hbc, hbe⟩ := ih b l' hchain.2 hk'
      refine ⟨⟨rfl, hchain.1, hbc⟩, ?_⟩
      show boundsEnd b ((ival (b :: l')).take k) = (b :: l').getD k 0
      exact hbe

/-- C4.  Each `simulate_rounds` call appends exactly the `end - start`
newly chosen actions, in row order, to the policy's action history; and
over a full run, after `k` simulated batches the history length equals
`min_batch` plus the sum of the first `k` incremental batch sizes
(the increments after the warm-start one). -/
theorem C4_history_growth {α σ : Type} (X : ℕ → α) (y : ℕ → ℕ → ℚ) :
    (∀ (st en : ℕ) (pr : PolRun α σ),
      (pr.pol.predict pr.state (rows X st en) st).length = en - st →
      (simulate_rounds X y st en pr).hist
          = pr.hist ++ (pr.pol.predict pr.state (rows X st en) st).map (· % 256)
      ∧ ((pr.pol.predict pr.state (rows X st en) st).map (· % 256)).length
          = en - st)
    ∧ (∀ (rng : NpRandom) (nchoices s0 : ℕ) (models : List (Policy α σ))
        (rewards0 : List (List ℚ)) (tcounts0 : List ℕ) (mb total : ℤ)
        (pct : ℚ) (ns incrs : List ℤ) (k i : ℕ),
        1 ≤ mb → mb ≤ total →
        simSchedule mb pct total = some (ns, incrs) →
        (∀ P ∈ models, PredictsPerRow P) →
        rewards0.length = models.length → tcounts0.length = models.length →
        i < models.length →
        k ≤ (((ns.map Int.toNat).drop 1).zip ((ns.map Int.toNat).drop 2)).length →
        ((runRounds X y
            ((((ns.map Int.toNat).drop 1).zip ((ns.map Int.toNat).drop 2)).take k)
            (warmStart rng X y nchoices models rewards0 tcounts0 mb.toNat s0)).get? i).map
          (fun p => (p.hist.length : ℤ))
          = some (mb + ((incrs.drop 1).take k).sum)) := by
  constructor
  · intro st en pr hp
    exact ⟨rfl, by rw [List.length_map, hp]⟩
  · intro rng nchoices s0 models rewards0 tcounts0 mb total pct ns incrs k i
      hmb htot hsched hcon hr ht hi hk
    obtain ⟨tns, tincrs, heq, hchain, hlast, hlen, hsum, hincrs, hsizes⟩ :=
      schedTail_spec mb pct total hmb (total.toNat + 1) 0 (le_refl 0)
        (by omega) (by omega)
    have hss : simSchedule mb pct total = some (0 :: tns, tincrs) := by
      unfold simSchedule buildSchedule
      rw [heq]
      rfl
    rw [hsched] at hss
    have hpair : (ns, incrs) = (0 :: tns, tincrs) := Option.some.inj hss
    have hns : ns = 0 :: tns := congrArg Prod.fst hpair
    have hincrs_eq : incrs = tincrs := congrArg Prod.snd hpair
    subst hns
    subst hincrs_eq
    cases tns with
    | nil =>
      simp at hlast
      omega
    | cons b0 tns' =>
      have hmem : ((0 : ℤ), b0) ∈ ival (0 :: b0 :: tns') := by
        simp [ival]
      have hb0 : b0 = mb := by
        have hs := (hsizes (0, b0) hmem).2
        rw [schedIncr_zero mb pct total (by omega) htot] at hs
        simpa using hs
      subst hb0
      have hincrs' : incrs
          = (b0 - 0) :: (ival (b0 :: tns')).map (fun p => p.2 - p.1) := by
        rw [hincrs]
        have hcut : ival ((0 : ℤ) :: b0 :: tns') = (0, b0) :: ival (b0 :: tns') := by
          simp [ival]
        rw [hcut, List.map_cons]
      have hpos : ∀ x ∈ incrs, 0 < x := by
        intro x hx
        rw [hincrs] at hx
        obtain ⟨p, hp, hpx⟩ := List.mem_map.mp hx
        have hlt := ival_lt (b0 :: tns') 0 hchain p hp
        omega
      have hmapcons : ((0 : ℤ) :: b0 :: tns').map Int.toNat
          = 0 :: b0.toNat :: tns'.map Int.toNat := by
        simp
      have hbounds : ((((0 : ℤ) :: b0 :: tns').map Int.toNat).drop 1).zip
            ((((0 : ℤ) :: b0 :: tns').map Int.toNat).drop 2)
          = ival (b0.toNat :: tns'.map Int.toNat) := by
        rw [hmapcons]
        rfl
      have hchainN : List.Chain' (· ≤ ·) (b0.toNat :: tns'.map Int.toNat) := by
        have htail : List.Chain' (· < ·) (b0 :: tns') := hchain.tail
        have hmapped : List.Chain' (· ≤ ·) ((b0 :: tns').map Int.toNat) := by
          rw [List.chain'_map]
          exact htail.imp (fun a b h => Int.toNat_le_toNat (le_of_lt h))
        simpa using hmapped
      have hivlen : (ival (b0.toNat :: tns'.map Int.toNat)).length
          = tns'.length := by
        simp only [ival, List.length_zip, List.tail_cons, List.length_cons,
          List.length_map]
        omega
      rw [hbounds] at hk ⊢
      have hk' : k ≤ (tns'.map Int.toNat).length := by
        rw [List.length_map]
        omega
      obtain ⟨hBC, hBE⟩ := ival_take_chain k b0.toNat (tns'.map Int.toNat)
        hchainN hk'
      obtain ⟨s', hs'⟩ := warmStart_get? rng X y nchoices models rewards0 tcounts0
        b0.toNat s0 i (models.get ⟨i, hi⟩) (rewards0.get ⟨i, by omega⟩)
        (tcounts0.get ⟨i, by omega⟩) (List.get?_eq_get hi)
        (List.get?_eq_get (by omega)) (List.get?_eq_get (by omega))
      cases hget : (warmStart rng X y nchoices models rewards0 tcounts0
          b0.toNat s0).get? i with
      | none =>
        rw [hget] at hs'
        cases hs'
      | some pr0 =>
        have hpr0 := Option.some.inj (hget.symm.trans hs')
        have hc0 : PredictsPerRow pr0.pol := by
          rw [hpr0]
          exact hcon _ (List.get_mem models i hi)
        have hl0 : pr0.hist.length = b0.toNat := by
          rw [hpr0]
          exact rng.randint_length s0 nchoices b0.toNat
        rw [runRounds_eq_map, List.get?_map, hget, Option.map_some',
            Option.map_some']
        congr 1
        rw [polFold_hist_len X y _ pr0 hc0 (by rw [hl0]; exact hBC), hl0, hBE]
        have hlen' : incrs.length = tns'.length + 1 := by
          simp at hlen
          omega
        have hget2 : ((b0 :: tns').map Int.toNat).get? k
            = some ((incrs.take (k + 1)).sum).toNat := by
          rw [List.get?_map]
          have h2 := hsum (k + 1) (by rw [List.length_map] at hk'; omega)
          have h3 : (b0 :: tns').get? k = some ((incrs.take (k + 1)).sum) := by
            simpa using h2
          rw [h3]
          rfl
        have hgdval : (b0.toNat :: tns'.map Int.toNat).getD k 0
            = ((incrs.take (k + 1)).sum).toNat := by
          have hgd : b0.toNat :: tns'.map Int.toNat
              = (b0 :: tns').map Int.toNat := by simp
          rw [hgd, List.getD_eq_getD_get?, hget2]
          rfl
        have hsumpos : 0 ≤ (incrs.take (k + 1)).sum :=
          List.sum_nonneg
            (fun x hx => le_of_lt (hpos x (List.take_subset _ _ hx)))
        have hsplit : (incrs.take (k + 1)).sum
            = b0 + ((incrs.drop 1).take k).sum := by
          rw [hincrs', List.take_succ_cons, List.sum_cons, List.drop_succ_cons,
              List.drop_zero]
          omega
        rw [hgdval, Int.toNat_of_nonneg hsumpos, hsplit]

/-- Witness for C4: with `min_batch = 4`, `incr_batch_pct = 1/2` on 10
rows (schedule `[0,4,8,10]`, increments `[4,4,2]`), after `k = 1`
simulated batch the history length is `4 + 4`. -/
theorem C4_history_growth_witness :
    (1 : ℤ) ≤ 4 ∧ (4 : ℤ) ≤ 10 ∧
    simSchedule 4 (1/2) 10 = some ([0, 4, 8, 10], [4, 4, 2]) ∧
    (∀ P ∈ [polW], PredictsPerRow P) ∧
    ([[]] : List (List ℚ)).length = [polW].length ∧
    ([0] : List ℕ).length = [polW].length ∧
    0 < [polW].length ∧
    1 ≤ ((((([0, 4, 8, 10] : List ℤ).map Int.toNat).drop 1).zip
          ((([0, 4, 8, 10] : List ℤ).map Int.toNat).drop 2)).length) ∧
    ((runRounds XW yW
        ((((([0, 4, 8, 10] : List ℤ).map Int.toNat).drop 1).zip
            ((([0, 4, 8, 10] : List ℤ).map Int.toNat).drop 2)).take 1)
        (warmStart rngW XW yW 3 [polW] [[]] [0] (4 : ℤ).toNat 0)).get? 0).map
      (fun p => (p.hist.length : ℤ))
      = some (4 + ((([4, 4, 2] : List ℤ).drop 1).take 1).sum) :=
  ⟨by decide, by decide, sched_4_half_10,
   by
     intro P hP
     rw [List.mem_singleton] at hP
     subst hP
     intro m f s
     simp [polW],
   rfl, rfl, by decide, by decide,
   (C4_history_growth XW yW).2 rngW 3 0 [polW] [[]] [0] 4 10 (1/2)
     [0, 4, 8, 10] [4, 4, 2] 1 0 (by decide) (by decide) sched_4_half_10
     (by
       intro P hP
       rw [List.mem_singleton] at hP
       subst hP
       intro m f s
       simp [polW])
     rfl rfl (by decide) (by decide)⟩
